import Mathlib

/-!
Verification of the text-patch engine of
`crates/forge_services/src/tools/patch.rs`.

Text buffers are modelled as `List Char`; the Rust slice `&s[i..j]`
becomes `slice s i j`, `&s[..n]` becomes `List.take n` and `&s[n..]`
becomes `List.drop n`.  Rust's `str::find` becomes `findSub`, returning
the leftmost offset of an exact occurrence.  Offsets count characters
where Rust counts bytes; every offset the engine handles is produced by
exact substring search, so both coordinate systems are related by the
same order-preserving correspondence and the embedding is faithful.
-/

namespace Forge.Patch

/-- A match found in the source text: starting position and length of the
matched text (struct `Range` in patch.rs). -/
structure Range where
  start : Nat
  length : Nat
  deriving DecidableEq

/-- The end position (exclusive) of a match (`Range::end` in the source;
`end` is a Lean keyword, hence the name `endPos`). -/
def Range.endPos (r : Range) : Nat := r.start + r.length

/-- Rust `str::find`: the offset of the leftmost occurrence of `p` in
`s`, or `none` when `p` does not occur anywhere in `s`. -/
def findSub : List Char → List Char → Option Nat
  | [], p => if p = [] then some 0 else none
  | c :: rest, p =>
      if (c :: rest).take p.length = p then some 0
      else (findSub rest p).map (fun n => n + 1)

/-- `Range::find_exact`: locate the leftmost exact occurrence of
`search` in `source` as a `Range`. -/
def Range.find_exact (source search : List Char) : Option Range :=
  (findSub source search).map (fun n => ⟨n, search.length⟩)

/-- Rust slice `&s[i..j]`. -/
def slice (s : List Char) (i j : Nat) : List Char := (s.drop i).take (j - i)

/-- Operation types that can be performed on matched text
(enum `Operation` in patch.rs). -/
inductive Operation where
  | Prepend
  | Append
  | Replace
  | Swap
  deriving DecidableEq

/-- The typed failures of the engine (enum `Error` in patch.rs).  The
`FileOperation` variant of the Rust enum wraps I/O failures of the
surrounding tool and is never produced by `apply_replacement`, so it is
not part of the engine model. -/
inductive Error where
  | NoMatch : List Char → Error
  | NoSwapTarget : List Char → Error
  deriving DecidableEq

/-- `apply_replacement` from patch.rs, translated clause by clause. -/
def apply_replacement (source : List Char) (search : List Char)
    (operation : Operation) (content : List Char) : Except Error (List Char) :=
  if search = [] then
    match operation with
    | .Append => .ok (source ++ content)
    | .Prepend => .ok (content ++ source)
    | .Replace => .ok content
    | .Swap => .ok source
  else
    match Range.find_exact source search with
    | none => .error (.NoMatch search)
    | some patch =>
      match operation with
      | .Prepend => .ok (source.take patch.start ++ content ++ source.drop patch.start)
      | .Append => .ok (source.take patch.endPos ++ content ++ source.drop patch.endPos)
      | .Replace => .ok (source.take patch.start ++ content ++ source.drop patch.endPos)
      | .Swap =>
        match Range.find_exact source content with
        | none => .error (.NoSwapTarget content)
        | some target_patch =>
          if (patch.start ≤ target_patch.start ∧ patch.endPos > target_patch.start)
              ∨ (target_patch.start ≤ patch.start ∧ target_patch.endPos > patch.start) then
            .ok (source.take patch.start ++ content ++ source.drop patch.endPos)
          else if patch.start < target_patch.start then
            .ok (source.take patch.start ++ content
              ++ slice source patch.endPos target_patch.start
              ++ slice source patch.start patch.endPos
              ++ source.drop target_patch.endPos)
          else
            .ok (source.take target_patch.start
              ++ slice source patch.start patch.endPos
              ++ slice source target_patch.endPos patch.start
              ++ content
              ++ source.drop patch.endPos)

/-- The pattern occurs in `s` at offset `n` (as an exact substring). -/
def occursAt (s p : List Char) (n : Nat) : Prop := (s.drop n).take p.length = p

instance occursAt.instDecidable (s p : List Char) (n : Nat) : Decidable (occursAt s p n) :=
  inferInstanceAs (Decidable ((s.drop n).take p.length = p))

instance instDecidableEqExcept {ε α : Type} [DecidableEq ε] [DecidableEq α] :
    DecidableEq (Except ε α) := fun a b =>
  match a, b with
  | .ok x, .ok y =>
    if h : x = y then isTrue (by rw [h]) else isFalse (by intro hc; cases hc; exact h rfl)
  | .error x, .error y =>
    if h : x = y then isTrue (by rw [h]) else isFalse (by intro hc; cases hc; exact h rfl)
  | .ok _, .error _ => isFalse (by intro hc; cases hc)
  | .error _, .ok _ => isFalse (by intro hc; cases hc)

/-- The pattern occurs somewhere in `s` as an exact substring. -/
def occursIn (p s : List Char) : Prop := ∃ n, occursAt s p n

/-- Number of offsets at which `p` occurs in `s`. -/
def countOcc (s p : List Char) : Nat :=
  ((List.range (s.length + 1)).filter (fun k => decide (occursAt s p k))).length

/-- The list of patterns passed to `Range::find_exact` during one call of
`apply_replacement`, in call order, mirroring its control flow: no call
on the empty-search fast path; one call carrying `search` otherwise; and
for `Swap`, when the first lookup succeeds, a second call carrying
`content`. -/
def matcherCalls (source search : List Char) (operation : Operation)
    (content : List Char) : List (List Char) :=
  if search = [] then []
  else
    match Range.find_exact source search with
    | none => [search]
    | some _ =>
      match operation with
      | .Swap => [search, content]
      | _ => [search]

/-- The spans occupied, in the text produced by a disjoint `Swap` whose
search matched at `p` and whose target matched at `t`, by the moved-in
content (first component) and by the moved search match (second
component). -/
def swapResultRanges (p t : Range) : Range × Range :=
  if p.start < t.start then
    (⟨p.start, t.length⟩, ⟨p.start + t.length + (t.start - p.endPos), p.length⟩)
  else
    (⟨t.start + p.length + (p.start - t.endPos), t.length⟩, ⟨t.start, p.length⟩)

/-! ### Correctness of the matcher model -/

theorem findSub_nil_search (s : List Char) : findSub s [] = some 0 := by
  cases s <;> simp [findSub]

theorem findSub_occursAt {s p : List Char} {n : Nat}
    (h : findSub s p = some n) : occursAt s p n := by
  induction s generalizing n with
  | nil =>
    unfold findSub at h
    split at h
    · cases h
      simp_all [occursAt]
    · cases h
  | cons c rest ih =>
    unfold findSub at h
    split at h
    · cases h
      simpa [occursAt] using by assumption
    · rcases hm : findSub rest p with _ | m
      · rw [hm] at h; cases h
      · rw [hm] at h
        cases h
        simpa [occursAt] using ih hm

theorem findSub_bound {s p : List Char} {n : Nat}
    (h : findSub s p = some n) : n + p.length ≤ s.length := by
  induction s generalizing n with
  | nil =>
    unfold findSub at h
    split at h
    · cases h; simp_all
    · cases h
  | cons c rest ih =>
    unfold findSub at h
    split at h
    · rename_i htk
      cases h
      have hple : p.length ≤ (c :: rest).length := by
        have hlen := congrArg List.length htk
        rw [List.length_take] at hlen
        omega
      omega
    · rcases hm : findSub rest p with _ | m
      · rw [hm] at h; cases h
      · rw [hm] at h
        have hn : n = m + 1 := by simpa using h.symm
        subst hn
        have := ih hm
        simp only [List.length_cons]
        omega

theorem findSub_minimal {s p : List Char} {n : Nat}
    (h : findSub s p = some n) : ∀ k, k < n → ¬ occursAt s p k := by
  induction s generalizing n with
  | nil =>
    unfold findSub at h
    split at h
    · cases h
      intro k hk
      exact absurd hk (Nat.not_lt_zero k)
    · cases h
  | cons c rest ih =>
    unfold findSub at h
    split at h
    · cases h
      intro k hk
      exact absurd hk (Nat.not_lt_zero k)
    · rename_i htk
      rcases hm : findSub rest p with _ | m
      · rw [hm] at h; cases h
      · rw [hm] at h
        have hn : n = m + 1 := by simpa using h.symm
        subst hn
        intro k hk
        match k with
        | 0 =>
          intro hocc
          exact htk (by simpa [occursAt] using hocc)
        | j + 1 =>
          intro hocc
          exact ih hm j (by omega) (by simpa [occursAt] using hocc)

theorem findSub_none {s p : List Char}
    (h : findSub s p = none) : ∀ k, ¬ occursAt s p k := by
  induction s with
  | nil =>
    unfold findSub at h
    split at h
    · cases h
    · intro k hocc
      have : p = [] := by simpa [occursAt] using hocc
      simp_all
  | cons c rest ih =>
    unfold findSub at h
    split at h
    · cases h
    · rcases hm : findSub rest p with _ | m
      · intro k
        match k with
        | 0 =>
          intro hocc
          exact absurd (by simpa [occursAt] using hocc) (by assumption)
        | j + 1 =>
          intro hocc
          exact ih hm j (by simpa [occursAt] using hocc)
      · rw [hm] at h; cases h

theorem findSub_isSome_of_occursAt {s p : List Char} {k : Nat}
    (h : occursAt s p k) : ∃ n, findSub s p = some n := by
  rcases hf : findSub s p with _ | n
  · exact absurd h (findSub_none hf k)
  · exact ⟨n, rfl⟩

theorem find_exact_elim {source search : List Char} {r : Range}
    (h : Range.find_exact source search = some r) :
    findSub source search = some r.start ∧ r.length = search.length := by
  unfold Range.find_exact at h
  rcases hf : findSub source search with _ | n
  · rw [hf] at h; cases h
  · rw [hf] at h
    cases h
    exact ⟨rfl, rfl⟩

theorem find_exact_none {source search : List Char}
    (h : Range.find_exact source search = none) : findSub source search = none := by
  unfold Range.find_exact at h
  rcases hf : findSub source search with _ | n
  · rfl
  · rw [hf] at h; cases h

/-- The slice of the source at a range produced by `find_exact` is the
searched-for pattern itself. -/
theorem slice_find_exact {source p : List Char} {r : Range}
    (h : Range.find_exact source p = some r) :
    slice source r.start r.endPos = p := by
  obtain ⟨hf, hl⟩ := find_exact_elim h
  have hocc := findSub_occursAt hf
  unfold slice Range.endPos
  rw [hl]
  simpa [occursAt] using hocc

theorem find_exact_bound {s p : List Char} {r : Range}
    (h : Range.find_exact s p = some r) : r.endPos ≤ s.length := by
  obtain ⟨hf, hl⟩ := find_exact_elim h
  have := findSub_bound hf
  unfold Range.endPos
  omega

theorem eq_decomp_of_findSub {s p : List Char} {n : Nat} (h : findSub s p = some n) :
    s = s.take n ++ p ++ s.drop (n + p.length) := by
  have hocc := findSub_occursAt h
  have h2 : s.drop n = p ++ s.drop (n + p.length) := by
    conv_lhs => rw [← List.take_append_drop p.length (s.drop n)]
    unfold occursAt at hocc
    rw [hocc, List.drop_drop, Nat.add_comm]
  conv_lhs => rw [← List.take_append_drop n s, h2]
  rw [List.append_assoc]

/-- A match found by `find_exact` splits the suffix of the source at its
start into the pattern followed by the suffix at its end. -/
theorem drop_start_of_find {s p : List Char} {r : Range}
    (h : Range.find_exact s p = some r) :
    s.drop r.start = p ++ s.drop r.endPos := by
  obtain ⟨hf, hl⟩ := find_exact_elim h
  have hocc := findSub_occursAt hf
  conv_lhs => rw [← List.take_append_drop p.length (s.drop r.start)]
  unfold occursAt at hocc
  rw [hocc, List.drop_drop]
  unfold Range.endPos
  rw [hl, Nat.add_comm]

theorem drop_eq_slice_append {s : List Char} {i j : Nat} (h : i ≤ j) :
    s.drop i = slice s i j ++ s.drop j := by
  conv_lhs => rw [← List.take_append_drop (j - i) (s.drop i)]
  rw [List.drop_drop, Nat.add_sub_cancel' h]
  rfl

theorem length_take_of_le {s : List Char} {n : Nat} (h : n ≤ s.length) :
    (s.take n).length = n := by
  rw [List.length_take]
  omega

theorem length_slice {s : List Char} {i j : Nat} (hij : i ≤ j) (hj : j ≤ s.length) :
    (slice s i j).length = j - i := by
  unfold slice
  rw [List.length_take, List.length_drop]
  omega

/-! ### Characterization of the branches of `apply_replacement` -/

theorem apply_notfound {s search : List Char} (c : List Char) (op : Operation)
    (hs : search ≠ []) (hf : Range.find_exact s search = none) :
    apply_replacement s search op c = .error (.NoMatch search) := by
  unfold apply_replacement
  rw [if_neg hs, hf]

theorem apply_found_prepend {s search : List Char} {p : Range} (c : List Char)
    (hs : search ≠ []) (hf : Range.find_exact s search = some p) :
    apply_replacement s search .Prepend c
      = .ok (s.take p.start ++ c ++ s.drop p.start) := by
  unfold apply_replacement
  rw [if_neg hs, hf]

theorem apply_found_append {s search : List Char} {p : Range} (c : List Char)
    (hs : search ≠ []) (hf : Range.find_exact s search = some p) :
    apply_replacement s search .Append c
      = .ok (s.take p.endPos ++ c ++ s.drop p.endPos) := by
  unfold apply_replacement
  rw [if_neg hs, hf]

theorem apply_found_replace {s search : List Char} {p : Range} (c : List Char)
    (hs : search ≠ []) (hf : Range.find_exact s search = some p) :
    apply_replacement s search .Replace c
      = .ok (s.take p.start ++ c ++ s.drop p.endPos) := by
  unfold apply_replacement
  rw [if_neg hs, hf]

theorem apply_swap_noTarget {s search c : List Char} {p : Range}
    (hs : search ≠ []) (hf : Range.find_exact s search = some p)
    (hg : Range.find_exact s c = none) :
    apply_replacement s search .Swap c = .error (.NoSwapTarget c) := by
  unfold apply_replacement
  rw [if_neg hs, hf, hg]

theorem apply_swap_overlap {s search c : List Char} {p t : Range}
    (hs : search ≠ []) (hf : Range.find_exact s search = some p)
    (hg : Range.find_exact s c = some t)
    (hov : (p.start ≤ t.start ∧ p.endPos > t.start)
        ∨ (t.start ≤ p.start ∧ t.endPos > p.start)) :
    apply_replacement s search .Swap c
      = .ok (s.take p.start ++ c ++ s.drop p.endPos) := by
  unfold apply_replacement
  rw [if_neg hs, hf, hg]
  simp [hov]

theorem apply_swap_first {s search c : List Char} {p t : Range}
    (hs : search ≠ []) (hf : Range.find_exact s search = some p)
    (hg : Range.find_exact s c = some t)
    (hov : ¬ ((p.start ≤ t.start ∧ p.endPos > t.start)
        ∨ (t.start ≤ p.start ∧ t.endPos > p.start)))
    (hlt : p.start < t.start) :
    apply_replacement s search .Swap c
      = .ok (s.take p.start ++ c ++ slice s p.endPos t.start
          ++ slice s p.start p.endPos ++ s.drop t.endPos) := by
  unfold apply_replacement
  rw [if_neg hs, hf, hg]
  simp [hov, hlt]

theorem apply_swap_second {s search c : List Char} {p t : Range}
    (hs : search ≠ []) (hf : Range.find_exact s search = some p)
    (hg : Range.find_exact s c = some t)
    (hov : ¬ ((p.start ≤ t.start ∧ p.endPos > t.start)
        ∨ (t.start ≤ p.start ∧ t.endPos > p.start)))
    (hnlt : ¬ p.start < t.start) :
    apply_replacement s search .Swap c
      = .ok (s.take t.start ++ slice s p.start p.endPos
          ++ slice s t.endPos p.start ++ c ++ s.drop p.endPos) := by
  unfold apply_replacement
  rw [if_neg hs, hf, hg]
  simp [hov, hnlt]

theorem not_occursIn_of_findSub_none {p s : List Char}
    (h : findSub s p = none) : ¬ occursIn p s :=
  fun ⟨k, hk⟩ => findSub_none h k hk

/-! ### Claim theorems -/

/-- **C4.** With empty search, `apply_replacement` never fails and acts
on the whole-document edges: `Append` yields source followed by content,
`Prepend` yields content followed by source, `Replace` yields content
alone, and `Swap` returns the source unchanged. -/
theorem empty_search_fast_path (s c : List Char) :
    apply_replacement s [] .Append c = .ok (s ++ c)
    ∧ apply_replacement s [] .Prepend c = .ok (c ++ s)
    ∧ apply_replacement s [] .Replace c = .ok c
    ∧ apply_replacement s [] .Swap c = .ok s := by
  refine ⟨?_, ?_, ?_, ?_⟩ <;> simp [apply_replacement]

/-- **C3.** With non-empty search occurring in the source, the located
match is the leftmost occurrence (no earlier offset carries the pattern),
and `Prepend`, `Append`, `Replace` splice the content at the match
bounds exactly as specified. -/
theorem anchored_ops_leftmost (s search c : List Char) (m : Range)
    (hs : search ≠ []) (hm : Range.find_exact s search = some m) :
    (occursAt s search m.start ∧ ∀ k, k < m.start → ¬ occursAt s search k)
    ∧ apply_replacement s search .Prepend c = .ok (s.take m.start ++ c ++ s.drop m.start)
    ∧ apply_replacement s search .Append c = .ok (s.take m.endPos ++ c ++ s.drop m.endPos)
    ∧ apply_replacement s search .Replace c = .ok (s.take m.start ++ c ++ s.drop m.endPos) := by
  obtain ⟨hf, _⟩ := find_exact_elim hm
  exact ⟨⟨findSub_occursAt hf, findSub_minimal hf⟩,
    apply_found_prepend c hs hm, apply_found_append c hs hm, apply_found_replace c hs hm⟩

theorem anchored_ops_leftmost_witness :
    apply_replacement ("Hello World".toList) ("World".toList) .Replace ("Forge".toList)
      = .ok ("Hello Forge".toList) := by
  have h := anchored_ops_leftmost ("Hello World".toList) ("World".toList) ("Forge".toList)
      ⟨6, 5⟩ (by decide) (by decide)
  rw [h.2.2.2]
  decide

/-- **C2.** When the leftmost ranges of search and content overlap (one
range's start falls inside the other, as tested by the code), `Swap`
does not fail: it returns exactly what `Replace` returns. -/
theorem swap_overlap_degrades (s search c : List Char) (p t : Range)
    (hs : search ≠ [])
    (hp : Range.find_exact s search = some p)
    (ht : Range.find_exact s c = some t)
    (hov : (p.start ≤ t.start ∧ p.endPos > t.start)
        ∨ (t.start ≤ p.start ∧ t.endPos > p.start)) :
    apply_replacement s search .Swap c = apply_replacement s search .Replace c := by
  rw [apply_swap_overlap hs hp ht hov, apply_found_replace c hs hp]

theorem swap_overlap_degrades_witness :
    apply_replacement ("abc".toList) ("abc".toList) .Swap ("b".toList)
      = apply_replacement ("abc".toList) ("abc".toList) .Replace ("b".toList) :=
  swap_overlap_degrades ("abc".toList) ("abc".toList) ("b".toList) ⟨0, 3⟩ ⟨1, 1⟩
    (by decide) (by decide) (by decide) (by decide)

/-- **C5.** For every operation and non-empty search,
`apply_replacement` fails with `NoMatch` carrying the search pattern if
and only if the pattern occurs nowhere in the source. -/
theorem noMatch_iff_absent (s search c : List Char) (op : Operation) (hs : search ≠ []) :
    apply_replacement s search op c = .error (.NoMatch search) ↔ ¬ occursIn search s := by
  rcases hf : Range.find_exact s search with _ | p
  · have hnone := find_exact_none hf
    constructor
    · intro _
      rintro ⟨k, hk⟩
      exact findSub_none hnone k hk
    · intro _
      exact apply_notfound c op hs hf
  · obtain ⟨hfs, _⟩ := find_exact_elim hf
    have hocc : occursIn search s := ⟨p.start, findSub_occursAt hfs⟩
    constructor
    · intro heq
      exfalso
      cases op with
      | Prepend => rw [apply_found_prepend c hs hf] at heq; simp at heq
      | Append => rw [apply_found_append c hs hf] at heq; simp at heq
      | Replace => rw [apply_found_replace c hs hf] at heq; simp at heq
      | Swap =>
        rcases hg : Range.find_exact s c with _ | t
        · rw [apply_swap_noTarget hs hf hg] at heq
          simp at heq
        · by_cases hov : (p.start ≤ t.start ∧ p.endPos > t.start)
              ∨ (t.start ≤ p.start ∧ t.endPos > p.start)
          · rw [apply_swap_overlap hs hf hg hov] at heq; simp at heq
          · by_cases hlt : p.start < t.start
            · rw [apply_swap_first hs hf hg hov hlt] at heq; simp at heq
            · rw [apply_swap_second hs hf hg hov hlt] at heq; simp at heq
    · intro hn
      exact absurd hocc hn

theorem noMatch_iff_absent_witness :
    apply_replacement ("abc".toList) ("xyz".toList) .Replace ("q".toList)
      = .error (.NoMatch ("xyz".toList)) :=
  (noMatch_iff_absent ("abc".toList) ("xyz".toList) ("q".toList) .Replace (by decide)).mpr
    (not_occursIn_of_findSub_none (by decide))

/-- **C6.** For `Swap` with non-empty search occurring in the source,
the call fails with `NoSwapTarget` carrying the content if and only if
the content occurs nowhere in the source. -/
theorem noSwapTarget_iff_absent (s search c : List Char) (p : Range)
    (hs : search ≠ []) (hp : Range.find_exact s search = some p) :
    apply_replacement s search .Swap c = .error (.NoSwapTarget c) ↔ ¬ occursIn c s := by
  rcases hg : Range.find_exact s c with _ | t
  · constructor
    · intro _
      rintro ⟨k, hk⟩
      exact findSub_none (find_exact_none hg) k hk
    · intro _
      exact apply_swap_noTarget hs hp hg
  · obtain ⟨hgs, _⟩ := find_exact_elim hg
    have hocc : occursIn c s := ⟨t.start, findSub_occursAt hgs⟩
    constructor
    · intro heq
      exfalso
      by_cases hov : (p.start ≤ t.start ∧ p.endPos > t.start)
          ∨ (t.start ≤ p.start ∧ t.endPos > p.start)
      · rw [apply_swap_overlap hs hp hg hov] at heq; simp at heq
      · by_cases hlt : p.start < t.start
        · rw [apply_swap_first hs hp hg hov hlt] at heq; simp at heq
        · rw [apply_swap_second hs hp hg hov hlt] at heq; simp at heq
    · intro hn
      exact absurd hocc hn

theorem noSwapTarget_iff_absent_witness :
    apply_replacement ("foo bar baz".toList) ("foo".toList) .Swap ("nonexistent".toList)
      = .error (.NoSwapTarget ("nonexistent".toList)) :=
  (noSwapTarget_iff_absent ("foo bar baz".toList) ("foo".toList) ("nonexistent".toList)
      ⟨0, 3⟩ (by decide) (by decide)).mpr
    (not_occursIn_of_findSub_none (by decide))

/-- **C8.** Replacing a pattern that occurs exactly once by itself
leaves the source unchanged. -/
theorem replace_self_identity (s p : List Char) (hps : p ≠ []) (honce : countOcc s p = 1) :
    apply_replacement s p .Replace p = .ok s := by
  have hex : ∃ k, occursAt s p k := by
    unfold countOcc at honce
    rcases hfil : (List.range (s.length + 1)).filter (fun k => decide (occursAt s p k))
        with _ | ⟨x, xs⟩
    · rw [hfil] at honce
      simp at honce
    · have hx : x ∈ (List.range (s.length + 1)).filter (fun k => decide (occursAt s p k)) := by
        rw [hfil]
        exact List.mem_cons_self x xs
      have hmem := List.mem_filter.mp hx
      exact ⟨x, of_decide_eq_true hmem.2⟩
  obtain ⟨k, hk⟩ := hex
  obtain ⟨n, hn⟩ := findSub_isSome_of_occursAt hk
  have hfe : Range.find_exact s p = some ⟨n, p.length⟩ := by
    unfold Range.find_exact
    rw [hn]
    rfl
  rw [apply_found_replace p hps hfe]
  exact congrArg Except.ok (eq_decomp_of_findSub hn).symm

theorem replace_self_identity_witness :
    apply_replacement ("Hello World".toList) ("World".toList) .Replace ("World".toList)
      = .ok ("Hello World".toList) :=
  replace_self_identity ("Hello World".toList) ("World".toList) (by decide) (by decide)

/-- **C1.** Disjoint swap: with non-empty search and content both
occurring in the source and leftmost occurrences `p` (of search) and `t`
(of content) disjoint, the result is everything before the
earlier-starting range `E`, then the literal text occupying the
later-starting range `L`'s span in the original source, then the
unchanged middle between `E`'s end and `L`'s start, then the literal
text occupying `E`'s span, then everything after `L`'s end. -/
theorem swap_disjoint_spans (s search c : List Char) (p t E L : Range)
    (hs : search ≠ []) (hc : c ≠ [])
    (hp : Range.find_exact s search = some p)
    (ht : Range.find_exact s c = some t)
    (hd : p.endPos ≤ t.start ∨ t.endPos ≤ p.start)
    (hset : (E = p ∧ L = t) ∨ (E = t ∧ L = p))
    (hord : E.start ≤ L.start) :
    apply_replacement s search .Swap c =
      .ok (s.take E.start ++ slice s L.start L.endPos ++ slice s E.endPos L.start
        ++ slice s E.start E.endPos ++ s.drop L.endPos) := by
  have hplen : 0 < p.length := by
    rw [(find_exact_elim hp).2]
    exact List.length_pos.mpr hs
  have htlen : 0 < t.length := by
    rw [(find_exact_elim ht).2]
    exact List.length_pos.mpr hc
  rcases hset with ⟨hE, hL⟩ | ⟨hE, hL⟩ <;> rw [hE, hL] at hord ⊢
  · rcases hd with hd1 | hd2
    · have hov : ¬ ((p.start ≤ t.start ∧ p.endPos > t.start)
          ∨ (t.start ≤ p.start ∧ t.endPos > p.start)) := by
        unfold Range.endPos at hd1 ⊢
        omega
      have hlt : p.start < t.start := by
        unfold Range.endPos at hd1
        omega
      rw [apply_swap_first hs hp ht hov hlt, slice_find_exact ht]
    · exfalso
      unfold Range.endPos at hd2
      omega
  · rcases hd with hd1 | hd2
    · exfalso
      unfold Range.endPos at hd1
      omega
    · have hov : ¬ ((p.start ≤ t.start ∧ p.endPos > t.start)
          ∨ (t.start ≤ p.start ∧ t.endPos > p.start)) := by
        unfold Range.endPos at hd2 ⊢
        omega
      have hnlt : ¬ p.start < t.start := by
        unfold Range.endPos at hd2
        omega
      rw [apply_swap_second hs hp ht hov hnlt, slice_find_exact ht]

theorem swap_disjoint_spans_witness :
    apply_replacement ("Hello World".toList) ("Hello".toList) .Swap ("World".toList)
      = .ok ("World Hello".toList) := by
  have h := swap_disjoint_spans ("Hello World".toList) ("Hello".toList) ("World".toList)
      ⟨0, 5⟩ ⟨6, 5⟩ ⟨0, 5⟩ ⟨6, 5⟩ (by decide) (by decide) (by decide) (by decide)
      (by decide) (Or.inl ⟨rfl, rfl⟩) (by decide)
  rw [h]
  decide

/-- **C10.** Swap with empty content and a non-empty search that occurs:
the empty target matches at offset 0 with length 0, so the call never
fails.  If the search match starts at offset 0 the overlap branch fires
and the match is deleted; otherwise the matched text moves to the front
of the document. -/
theorem swap_empty_content (s search : List Char) (m : Range)
    (hs : search ≠ []) (hm : Range.find_exact s search = some m) :
    apply_replacement s search .Swap [] =
      .ok (if m.start = 0 then s.drop m.endPos
           else slice s m.start m.endPos ++ s.take m.start ++ s.drop m.endPos) := by
  have hg : Range.find_exact s [] = some ⟨0, 0⟩ := by
    unfold Range.find_exact
    rw [findSub_nil_search]
    rfl
  have hmlen : 0 < m.length := by
    rw [(find_exact_elim hm).2]
    exact List.length_pos.mpr hs
  by_cases h0 : m.start = 0
  · rw [if_pos h0]
    have hov : (m.start ≤ (⟨0, 0⟩ : Range).start ∧ m.endPos > (⟨0, 0⟩ : Range).start)
        ∨ ((⟨0, 0⟩ : Range).start ≤ m.start ∧ (⟨0, 0⟩ : Range).endPos > m.start) := by
      left
      refine ⟨?_, ?_⟩
      · show m.start ≤ 0
        omega
      · show m.endPos > 0
        unfold Range.endPos
        omega
    rw [apply_swap_overlap hs hm hg hov, h0]
    simp
  · rw [if_neg h0]
    have hov : ¬ ((m.start ≤ (⟨0, 0⟩ : Range).start ∧ m.endPos > (⟨0, 0⟩ : Range).start)
        ∨ ((⟨0, 0⟩ : Range).start ≤ m.start ∧ (⟨0, 0⟩ : Range).endPos > m.start)) := by
      intro hcase
      rcases hcase with ⟨h1, _⟩ | ⟨_, h2⟩
      · exact h0 (Nat.le_zero.mp h1)
      · have h2' : (0 : Nat) + 0 > m.start := h2
        omega
    have hnlt : ¬ m.start < (⟨0, 0⟩ : Range).start := by
      show ¬ m.start < 0
      omega
    rw [apply_swap_second hs hm hg hov hnlt]
    simp [slice, Range.endPos]

theorem swap_empty_content_witness :
    apply_replacement ("abc".toList) ("b".toList) .Swap [] = .ok ("bac".toList) := by
  have h := swap_empty_content ("abc".toList) ("b".toList) ⟨1, 1⟩ (by decide) (by decide)
  rw [h]
  decide

/-- **C9 (counterexample).** The Applier does invoke the Matcher with an
empty pattern: with source "ab", search "a", operation Swap and empty
content, the second lookup passes the empty pattern to the Matcher. -/
theorem matcher_empty_call_cex :
    [] ∈ matcherCalls ("ab".toList) ("a".toList) .Swap [] := by decide

/-- **C9 (amended).** Every pattern handed to the Matcher is non-empty,
except that the second lookup performed for Swap passes the content
verbatim, which may be empty: any empty pattern among the Matcher calls
of an invocation is the content of a Swap. -/
theorem matcher_calls_nonempty_unless_swap_content
    (source search content : List Char) (op : Operation) (pat : List Char)
    (hmem : pat ∈ matcherCalls source search op content) :
    pat ≠ [] ∨ (op = .Swap ∧ pat = content) := by
  unfold matcherCalls at hmem
  by_cases hs : search = []
  · rw [if_pos hs] at hmem
    cases hmem
  · rw [if_neg hs] at hmem
    rcases hf : Range.find_exact source search with _ | r
    · rw [hf] at hmem
      have hps : pat = search := by simpa using hmem
      exact Or.inl (fun hpat => hs (hps.symm.trans hpat))
    · rw [hf] at hmem
      cases op with
      | Swap =>
        rcases (by simpa using hmem : pat = search ∨ pat = content) with h | h
        · exact Or.inl (fun hpat => hs (h.symm.trans hpat))
        · exact Or.inr ⟨rfl, h⟩
      | Prepend =>
        have hps : pat = search := by simpa using hmem
        exact Or.inl (fun hpat => hs (hps.symm.trans hpat))
      | Append =>
        have hps : pat = search := by simpa using hmem
        exact Or.inl (fun hpat => hs (hps.symm.trans hpat))
      | Replace =>
        have hps : pat = search := by simpa using hmem
        exact Or.inl (fun hpat => hs (hps.symm.trans hpat))

theorem matcher_calls_nonempty_unless_swap_content_witness :
    ([] : List Char) ≠ [] ∨ (Operation.Swap = Operation.Swap ∧ ([] : List Char) = []) :=
  matcher_calls_nonempty_unless_swap_content ("ab".toList) ("a".toList) [] .Swap []
    (by decide)

/-! ### Swap on an explicitly decomposed source -/

/-- Disjoint swap where the search match (span `X`) precedes the content
match (span `Y`): the two spans trade places. -/
theorem apply_swap_on_parts (A X M Y Z : List Char) (search c : List Char)
    (hs : search ≠ [])
    (hpos : 0 < X.length + M.length)
    (hfp : Range.find_exact (A ++ (X ++ (M ++ (Y ++ Z)))) search
        = some ⟨A.length, X.length⟩)
    (hft : Range.find_exact (A ++ (X ++ (M ++ (Y ++ Z)))) c
        = some ⟨A.length + X.length + M.length, Y.length⟩) :
    apply_replacement (A ++ (X ++ (M ++ (Y ++ Z)))) search .Swap c
      = .ok (A ++ (c ++ (M ++ (X ++ Z)))) := by
  have hov : ¬ (((⟨A.length, X.length⟩ : Range).start
          ≤ (⟨A.length + X.length + M.length, Y.length⟩ : Range).start
        ∧ (⟨A.length, X.length⟩ : Range).endPos
          > (⟨A.length + X.length + M.length, Y.length⟩ : Range).start)
      ∨ ((⟨A.length + X.length + M.length, Y.length⟩ : Range).start
          ≤ (⟨A.length, X.length⟩ : Range).start
        ∧ (⟨A.length + X.length + M.length, Y.length⟩ : Range).endPos
          > (⟨A.length, X.length⟩ : Range).start)) := by
    intro hcase
    rcases hcase with ⟨h1, h2⟩ | ⟨h1, h2⟩
    · have h2' : A.length + X.length > A.length + X.length + M.length := h2
      omega
    · have h1' : A.length + X.length + M.length ≤ A.length := h1
      omega
  have hlt : (⟨A.length, X.length⟩ : Range).start
      < (⟨A.length + X.length + M.length, Y.length⟩ : Range).start := by
    show A.length < A.length + X.length + M.length
    omega
  rw [apply_swap_first hs hfp hft hov hlt]
  have e1 : slice (A ++ (X ++ (M ++ (Y ++ Z)))) (A.length + X.length)
      (A.length + X.length + M.length) = M := by
    unfold slice
    rw [Nat.add_sub_cancel_left, List.drop_append, List.drop_left]
    exact List.take_left M (Y ++ Z)
  have e2 : slice (A ++ (X ++ (M ++ (Y ++ Z)))) A.length (A.length + X.length) = X := by
    unfold slice
    rw [Nat.add_sub_cancel_left, List.drop_left]
    exact List.take_left X (M ++ (Y ++ Z))
  have e3 : (A ++ (X ++ (M ++ (Y ++ Z)))).drop
      (A.length + X.length + M.length + Y.length) = Z := by
    have harith : A.length + X.length + M.length + Y.length
        = A.length + (X.length + (M.length + Y.length)) := by omega
    rw [harith, List.drop_append, List.drop_append, List.drop_append, List.drop_left]
  show Except.ok ((A ++ (X ++ (M ++ (Y ++ Z)))).take A.length ++ c
      ++ slice (A ++ (X ++ (M ++ (Y ++ Z)))) (A.length + X.length)
          (A.length + X.length + M.length)
      ++ slice (A ++ (X ++ (M ++ (Y ++ Z)))) A.length (A.length + X.length)
      ++ (A ++ (X ++ (M ++ (Y ++ Z)))).drop
          (A.length + X.length + M.length + Y.length))
    = Except.ok (A ++ (c ++ (M ++ (X ++ Z))))
  rw [List.take_left, e1, e2, e3]
  simp [List.append_assoc]

/-- Disjoint swap where the content match (span `Y`) precedes the search
match (span `X`): the two spans trade places. -/
theorem apply_swap_on_parts_rev (A Y M X Z : List Char) (search c : List Char)
    (hs : search ≠ [])
    (hpos : 0 < Y.length + M.length)
    (hfp : Range.find_exact (A ++ (Y ++ (M ++ (X ++ Z)))) search
        = some ⟨A.length + Y.length + M.length, X.length⟩)
    (hft : Range.find_exact (A ++ (Y ++ (M ++ (X ++ Z)))) c
        = some ⟨A.length, Y.length⟩) :
    apply_replacement (A ++ (Y ++ (M ++ (X ++ Z)))) search .Swap c
      = .ok (A ++ (X ++ (M ++ (c ++ Z)))) := by
  have hov : ¬ (((⟨A.length + Y.length + M.length, X.length⟩ : Range).start
          ≤ (⟨A.length, Y.length⟩ : Range).start
        ∧ (⟨A.length + Y.length + M.length, X.length⟩ : Range).endPos
          > (⟨A.length, Y.length⟩ : Range).start)
      ∨ ((⟨A.length, Y.length⟩ : Range).start
          ≤ (⟨A.length + Y.length + M.length, X.length⟩ : Range).start
        ∧ (⟨A.length, Y.length⟩ : Range).endPos
          > (⟨A.length + Y.length + M.length, X.length⟩ : Range).start)) := by
    intro hcase
    rcases hcase with ⟨h1, h2⟩ | ⟨h1, h2⟩
    · have h1' : A.length + Y.length + M.length ≤ A.length := h1
      omega
    · have h2' : A.length + Y.length > A.length + Y.length + M.length := h2
      omega
  have hnlt : ¬ (⟨A.length + Y.length + M.length, X.length⟩ : Range).start
      < (⟨A.length, Y.length⟩ : Range).start := by
    show ¬ A.length + Y.length + M.length < A.length
    omega
  rw [apply_swap_second hs hfp hft hov hnlt]
  have e1 : slice (A ++ (Y ++ (M ++ (X ++ Z)))) (A.length + Y.length + M.length)
      (A.length + Y.length + M.length + X.length) = X := by
    unfold slice
    rw [Nat.add_sub_cancel_left]
    have harith : A.length + Y.length + M.length
        = A.length + (Y.length + M.length) := by omega
    rw [harith, List.drop_append, List.drop_append, List.drop_left]
    exact List.take_left X Z
  have e2 : slice (A ++ (Y ++ (M ++ (X ++ Z)))) (A.length + Y.length)
      (A.length + Y.length + M.length) = M := by
    unfold slice
    rw [Nat.add_sub_cancel_left, List.drop_append, List.drop_left]
    exact List.take_left M (X ++ Z)
  have e3 : (A ++ (Y ++ (M ++ (X ++ Z)))).drop
      (A.length + Y.length + M.length + X.length) = Z := by
    have harith : A.length + Y.length + M.length + X.length
        = A.length + (Y.length + (M.length + X.length)) := by omega
    rw [harith, List.drop_append, List.drop_append, List.drop_append, List.drop_left]
  show Except.ok ((A ++ (Y ++ (M ++ (X ++ Z)))).take A.length
      ++ slice (A ++ (Y ++ (M ++ (X ++ Z)))) (A.length + Y.length + M.length)
          (A.length + Y.length + M.length + X.length)
      ++ slice (A ++ (Y ++ (M ++ (X ++ Z)))) (A.length + Y.length)
          (A.length + Y.length + M.length)
      ++ c
      ++ (A ++ (Y ++ (M ++ (X ++ Z)))).drop
          (A.length + Y.length + M.length + X.length))
    = Except.ok (A ++ (X ++ (M ++ (c ++ Z))))
  rw [List.take_left, e1, e2, e3]
  simp [List.append_assoc]

/-- Involution of a disjoint swap, case where the search match precedes
the content match. -/
theorem swap_involution_case1 (s a b s' : List Char) (ps pl ts tl : Nat)
    (ha : a ≠ []) (hb : b ≠ [])
    (hp : Range.find_exact s a = some ⟨ps, pl⟩)
    (ht : Range.find_exact s b = some ⟨ts, tl⟩)
    (hd1 : ps + pl ≤ ts)
    (h1 : apply_replacement s a .Swap b = .ok s')
    (hb' : Range.find_exact s' b = some ⟨ps, tl⟩)
    (ha' : Range.find_exact s' a = some ⟨ps + tl + (ts - (ps + pl)), pl⟩) :
    apply_replacement s' b .Swap a = .ok s := by
  have hpl : pl = a.length := (find_exact_elim hp).2
  have htl : tl = b.length := (find_exact_elim ht).2
  have halen : 0 < a.length := List.length_pos.mpr ha
  have hblen : 0 < b.length := List.length_pos.mpr hb
  have hbp : ps + pl ≤ s.length := find_exact_bound hp
  have hbt : ts + tl ≤ s.length := find_exact_bound ht
  have hA : (s.take ps).length = ps := length_take_of_le (by omega)
  have hM : (slice s (ps + pl) ts).length = ts - (ps + pl) := length_slice hd1 (by omega)
  have hdp : s.drop ps = a ++ s.drop (ps + pl) := drop_start_of_find hp
  have hdt : s.drop ts = b ++ s.drop (ts + tl) := drop_start_of_find ht
  have hsd : s = s.take ps ++ (a ++ (slice s (ps + pl) ts ++ (b ++ s.drop (ts + tl)))) := by
    conv_lhs => rw [← List.take_append_drop ps s]
    rw [hdp, drop_eq_slice_append hd1, hdt]
  have hfp1 : Range.find_exact
      (s.take ps ++ (a ++ (slice s (ps + pl) ts ++ (b ++ s.drop (ts + tl))))) a
      = some ⟨(s.take ps).length, a.length⟩ := by
    rw [← hsd, hA, ← hpl]
    exact hp
  have hft1 : Range.find_exact
      (s.take ps ++ (a ++ (slice s (ps + pl) ts ++ (b ++ s.drop (ts + tl))))) b
      = some ⟨(s.take ps).length + a.length + (slice s (ps + pl) ts).length, b.length⟩ := by
    rw [← hsd, hA, ← hpl, ← htl, hM]
    have harith : ps + pl + (ts - (ps + pl)) = ts := by omega
    rw [harith]
    exact ht
  have hpos1 : 0 < a.length + (slice s (ps + pl) ts).length := by omega
  have happ1 := apply_swap_on_parts (s.take ps) a (slice s (ps + pl) ts) b
      (s.drop (ts + tl)) a b ha hpos1 hfp1 hft1
  have hok := h1
  rw [hsd] at hok
  rw [happ1] at hok
  have hs' : s' = s.take ps ++ (b ++ (slice s (ps + pl) ts ++ (a ++ s.drop (ts + tl)))) :=
    (Except.ok.inj hok).symm
  have hfp2 : Range.find_exact
      (s.take ps ++ (b ++ (slice s (ps + pl) ts ++ (a ++ s.drop (ts + tl))))) b
      = some ⟨(s.take ps).length, b.length⟩ := by
    rw [← hs', hA, ← htl]
    exact hb'
  have hft2 : Range.find_exact
      (s.take ps ++ (b ++ (slice s (ps + pl) ts ++ (a ++ s.drop (ts + tl))))) a
      = some ⟨(s.take ps).length + b.length + (slice s (ps + pl) ts).length, a.length⟩ := by
    rw [← hs', hA, ← htl, ← hpl, hM]
    exact ha'
  have hpos2 : 0 < b.length + (slice s (ps + pl) ts).length := by omega
  have happ2 := apply_swap_on_parts (s.take ps) b (slice s (ps + pl) ts) a
      (s.drop (ts + tl)) b a hb hpos2 hfp2 hft2
  rw [hs', happ2, ← hsd]

/-- Involution of a disjoint swap, case where the content match precedes
the search match. -/
theorem swap_involution_case2 (s a b s' : List Char) (ps pl ts tl : Nat)
    (ha : a ≠ []) (hb : b ≠ [])
    (hp : Range.find_exact s a = some ⟨ps, pl⟩)
    (ht : Range.find_exact s b = some ⟨ts, tl⟩)
    (hd2 : ts + tl ≤ ps)
    (h1 : apply_replacement s a .Swap b = .ok s')
    (hb' : Range.find_exact s' b = some ⟨ts + pl + (ps - (ts + tl)), tl⟩)
    (ha' : Range.find_exact s' a = some ⟨ts, pl⟩) :
    apply_replacement s' b .Swap a = .ok s := by
  have hpl : pl = a.length := (find_exact_elim hp).2
  have htl : tl = b.length := (find_exact_elim ht).2
  have halen : 0 < a.length := List.length_pos.mpr ha
  have hblen : 0 < b.length := List.length_pos.mpr hb
  have hbp : ps + pl ≤ s.length := find_exact_bound hp
  have hbt : ts + tl ≤ s.length := find_exact_bound ht
  have hA : (s.take ts).length = ts := length_take_of_le (by omega)
  have hM : (slice s (ts + tl) ps).length = ps - (ts + tl) := length_slice hd2 (by omega)
  have hdp : s.drop ps = a ++ s.drop (ps + pl) := drop_start_of_find hp
  have hdt : s.drop ts = b ++ s.drop (ts + tl) := drop_start_of_find ht
  have hsd : s = s.take ts ++ (b ++ (slice s (ts + tl) ps ++ (a ++ s.drop (ps + pl)))) := by
    conv_lhs => rw [← List.take_append_drop ts s]
    rw [hdt, drop_eq_slice_append hd2, hdp]
  have hfp1 : Range.find_exact
      (s.take ts ++ (b ++ (slice s (ts + tl) ps ++ (a ++ s.drop (ps + pl))))) a
      = some ⟨(s.take ts).length + b.length + (slice s (ts + tl) ps).length, a.length⟩ := by
    rw [← hsd, hA, ← hpl, ← htl, hM]
    have harith : ts + tl + (ps - (ts + tl)) = ps := by omega
    rw [harith]
    exact hp
  have hft1 : Range.find_exact
      (s.take ts ++ (b ++ (slice s (ts + tl) ps ++ (a ++ s.drop (ps + pl))))) b
      = some ⟨(s.take ts).length, b.length⟩ := by
    rw [← hsd, hA, ← htl]
    exact ht
  have hpos1 : 0 < b.length + (slice s (ts + tl) ps).length := by omega
  have happ1 := apply_swap_on_parts_rev (s.take ts) b (slice s (ts + tl) ps) a
      (s.drop (ps + pl)) a b ha hpos1 hfp1 hft1
  have hok := h1
  rw [hsd] at hok
  rw [happ1] at hok
  have hs' : s' = s.take ts ++ (a ++ (slice s (ts + tl) ps ++ (b ++ s.drop (ps + pl)))) :=
    (Except.ok.inj hok).symm
  have hfp2 : Range.find_exact
      (s.take ts ++ (a ++ (slice s (ts + tl) ps ++ (b ++ s.drop (ps + pl))))) b
      = some ⟨(s.take ts).length + a.length + (slice s (ts + tl) ps).length, b.length⟩ := by
    rw [← hs', hA, ← hpl, ← htl, hM]
    exact hb'
  have hft2 : Range.find_exact
      (s.take ts ++ (a ++ (slice s (ts + tl) ps ++ (b ++ s.drop (ps + pl))))) a
      = some ⟨(s.take ts).length, a.length⟩ := by
    rw [← hs', hA, ← hpl]
    exact ha'
  have hpos2 : 0 < a.length + (slice s (ts + tl) ps).length := by omega
  have happ2 := apply_swap_on_parts_rev (s.take ts) a (slice s (ts + tl) ps) b
      (s.drop (ps + pl)) b a hb hpos2 hfp2 hft2
  rw [hs', happ2, ← hsd]

/-- **C7.** Swap is an involution on disjoint ranges: for non-empty `a`
and `b` both present in `s` with disjoint leftmost occurrences, swapping
`a` with `b` and then `b` with `a` restores `s`, under the hypothesis
that the leftmost occurrences of `b` and `a` in the intermediate text
locate exactly the spans the first swap produced. -/
theorem swap_involution (s a b s' : List Char) (p t : Range)
    (ha : a ≠ []) (hb : b ≠ [])
    (hp : Range.find_exact s a = some p)
    (ht : Range.find_exact s b = some t)
    (hd : p.endPos ≤ t.start ∨ t.endPos ≤ p.start)
    (h1 : apply_replacement s a .Swap b = .ok s')
    (hb' : Range.find_exact s' b = some (swapResultRanges p t).1)
    (ha' : Range.find_exact s' a = some (swapResultRanges p t).2) :
    apply_replacement s' b .Swap a = .ok s := by
  obtain ⟨ps, pl⟩ := p
  obtain ⟨ts, tl⟩ := t
  have hpl : pl = a.length := (find_exact_elim hp).2
  have htl : tl = b.length := (find_exact_elim ht).2
  have halen : 0 < a.length := List.length_pos.mpr ha
  have hblen : 0 < b.length := List.length_pos.mpr hb
  rcases hd with hd1 | hd2
  · have hd1' : ps + pl ≤ ts := hd1
    have hlt : ps < ts := by omega
    have hr : swapResultRanges ⟨ps, pl⟩ ⟨ts, tl⟩
        = (⟨ps, tl⟩, ⟨ps + tl + (ts - (ps + pl)), pl⟩) := by
      unfold swapResultRanges
      rw [if_pos hlt]
      rfl
    rw [hr] at hb' ha'
    exact swap_involution_case1 s a b s' ps pl ts tl ha hb hp ht hd1' h1 hb' ha'
  · have hd2' : ts + tl ≤ ps := hd2
    have hnlt : ¬ ps < ts := by omega
    have hr : swapResultRanges ⟨ps, pl⟩ ⟨ts, tl⟩
        = (⟨ts + pl + (ps - (ts + tl)), tl⟩, ⟨ts, pl⟩) := by
      unfold swapResultRanges
      rw [if_neg hnlt]
      rfl
    rw [hr] at hb' ha'
    exact swap_involution_case2 s a b s' ps pl ts tl ha hb hp ht hd2' h1 hb' ha'

theorem swap_involution_witness :
    apply_replacement ("World Hello".toList) ("World".toList) .Swap ("Hello".toList)
      = .ok ("Hello World".toList) :=
  swap_involution ("Hello World".toList) ("Hello".toList) ("World".toList)
    ("World Hello".toList) ⟨0, 5⟩ ⟨6, 5⟩ (by decide) (by decide) (by decide) (by decide)
    (by decide) (by decide) (by decide) (by decide)

end Forge.Patch
